import Mathlib

/-!
Verification of the offline spectral analysis pipeline of the neurocapture
repository (`src/neurocapture/analysis/eeg.py`).

Floating-point values of the source are embedded as exact rationals (reals for
the Fourier stage).  numpy/pandas/scipy routines the source calls are either
translated faithfully (stable sort, `median`, `groupby`+median aggregation,
`diff`-based monotonicity mask, `arange`, `interp`, `trapezoid`, `rfft`/`irfft`)
or, where they are external numeric black boxes with a documented contract
(the Butterworth band-pass filter, the Welch PSD estimator), are passed to the
pipeline as explicit function parameters, so every theorem about the pipeline
holds for the actual library routines in particular.
-/

section SortedCountLemmas

variable {α : Type} [LinearOrder α]

theorem countP_le_of_forall₂ {l₁ l₂ : List α} {x : α} (p : α → Bool)
    (hp : ∀ a, p a = true ↔ a ≤ x)
    (h : List.Forall₂ (· ≤ ·) l₁ l₂) :
    l₂.countP p ≤ l₁.countP p := by
  induction h with
  | nil => simp
  | @cons a b l₁' l₂' hab htl ih =>
    simp only [List.countP_cons]
    by_cases hbx : p b = true
    · have hax : p a = true := (hp a).mpr (le_trans hab ((hp b).mp hbx))
      rw [if_pos hbx, if_pos hax]
      exact Nat.add_le_add_right ih 1
    · rw [if_neg hbx]
      rcases hcase : p a
      · rw [if_neg (by simp [hcase])]
        simpa using ih
      · rw [if_pos (by simp [hcase])]
        exact le_trans ih (by omega)

theorem countP_take_drop (s : List α) (p : α → Bool) (k : ℕ) :
    s.countP p = (s.take k).countP p + (s.drop k).countP p := by
  conv_lhs => rw [← List.take_append_drop k s]
  exact List.countP_append _ _ _

theorem countP_le_sorted_getD {s : List α} (hs : List.Sorted (· ≤ ·) s)
    {k : ℕ} (hk : k < s.length) (d : α) (p : α → Bool)
    (hp : ∀ a, p a = true ↔ a ≤ s.getD k d) :
    k + 1 ≤ s.countP p := by
  have hx : s.getD k d = s.get ⟨k, hk⟩ := List.getD_eq_get s d hk
  have hcnt := countP_take_drop s p (k + 1)
  have htake : (s.take (k + 1)).countP p = (s.take (k + 1)).length := by
    rw [List.countP_eq_length]
    intro a ha
    obtain ⟨i, hi, rfl⟩ := List.getElem_of_mem ha
    have hik : i ≤ k := by
      have := hi
      simp only [List.length_take] at this
      omega
    have hil : i < s.length := by omega
    rw [List.getElem_take]
    refine (hp _).mpr ?_
    rw [hx]
    have : s.get ⟨i, hil⟩ ≤ s.get ⟨k, hk⟩ :=
      hs.rel_get_of_le (by simpa using hik)
    simpa [List.get_eq_getElem] using this
  have hlen : (s.take (k + 1)).length = k + 1 := by
    simp only [List.length_take]
    omega
  omega

theorem sorted_getD_le_of_countP {s : List α} (hs : List.Sorted (· ≤ ·) s)
    {k : ℕ} (hk : k < s.length) {x : α} (d : α) (p : α → Bool)
    (hp : ∀ a, p a = true ↔ a ≤ x)
    (h : k + 1 ≤ s.countP p) :
    s.getD k d ≤ x := by
  by_contra hlt
  push_neg at hlt
  have hx : s.getD k d = s.get ⟨k, hk⟩ := List.getD_eq_get s d hk
  rw [hx] at hlt
  have hcnt := countP_take_drop s p k
  have hdrop : (s.drop k).countP p = 0 := by
    rw [List.countP_eq_zero]
    intro a ha
    obtain ⟨i, hi, rfl⟩ := List.getElem_of_mem ha
    have hil : k + i < s.length := by
      have := hi
      simp only [List.length_drop] at this
      omega
    rw [List.getElem_drop]
    have hge : s.get ⟨k, hk⟩ ≤ s.get ⟨k + i, hil⟩ :=
      hs.rel_get_of_le (by simp [Fin.le_def])
    intro hpa
    have hle : s[k + i] ≤ x := (hp _).mp hpa
    have : s.get ⟨k + i, hil⟩ = s[k + i] := List.get_eq_getElem _ _
    rw [this] at hge
    exact absurd (le_trans hge hle) (not_le.mpr hlt)
  have htake : (s.take k).countP p ≤ k := by
    calc (s.take k).countP p ≤ (s.take k).length := List.countP_le_length _
    _ ≤ k := by simp [List.length_take]
  omega

/-- Pointwise smaller inputs give pointwise smaller sorted order statistics:
if `s₁`, `s₂` are sorted rearrangements of `l₁`, `l₂` and `l₁ ≤ l₂` holds
pointwise, then `s₁ ≤ s₂` pointwise. -/
theorem sorted_getD_mono_of_perm {l₁ l₂ s₁ s₂ : List α}
    (h : List.Forall₂ (· ≤ ·) l₁ l₂)
    (hperm₁ : s₁.Perm l₁) (hs₁ : List.Sorted (· ≤ ·) s₁)
    (hperm₂ : s₂.Perm l₂) (hs₂ : List.Sorted (· ≤ ·) s₂)
    {k : ℕ} (hk : k < l₁.length) (d : α) :
    s₁.getD k d ≤ s₂.getD k d := by
  have hlen : l₁.length = l₂.length := h.length_eq
  have hk₂ : k < s₂.length := by rw [hperm₂.length_eq]; omega
  have hk₁ : k < s₁.length := by rw [hperm₁.length_eq]; omega
  set x := s₂.getD k d with hxdef
  set p : α → Bool := fun a => decide (a ≤ x) with hpdef
  have hp : ∀ a, p a = true ↔ a ≤ x := fun a => by simp [hpdef]
  have h1 : k + 1 ≤ s₂.countP p := countP_le_sorted_getD hs₂ hk₂ d p hp
  have h2 : s₂.countP p = l₂.countP p := hperm₂.countP_eq p
  have h3 : l₂.countP p ≤ l₁.countP p := countP_le_of_forall₂ p hp h
  have h4 : l₁.countP p = s₁.countP p := (hperm₁.countP_eq p).symm
  exact sorted_getD_le_of_countP hs₁ hk₁ d p hp (by omega)

end SortedCountLemmas

/-- The median as computed by `numpy.median` / pandas `median()` on float
data: sort the values and take the middle element (odd length) or the mean of
the two middle elements (even length).  The uniform index formula
`(s[(n-1)/2] + s[n/2]) / 2` covers both parities.  The source never takes a
median of an empty collection; here the empty case defaults to `0`. -/
def median (l : List ℚ) : ℚ :=
  let s := l.insertionSort (· ≤ ·)
  (s.getD ((s.length - 1) / 2) 0 + s.getD (s.length / 2) 0) / 2

/-- The median only depends on the multiset of values. -/
theorem median_perm {l₁ l₂ : List ℚ} (h : l₁.Perm l₂) : median l₁ = median l₂ := by
  have hsort : l₁.insertionSort (· ≤ ·) = l₂.insertionSort (· ≤ ·) :=
    List.eq_of_perm_of_sorted
      ((List.perm_insertionSort _ _).trans (h.trans (List.perm_insertionSort _ _).symm))
      (List.sorted_insertionSort _ _) (List.sorted_insertionSort _ _)
  simp only [median, hsort]

/-- The median of (any permutation of) a two-element collection is its mean. -/
theorem median_pair {l : List ℚ} {a b : ℚ} (h : l.Perm [a, b]) :
    median l = (a + b) / 2 := by
  have hlen : (l.insertionSort (· ≤ ·)).length = 2 := by
    rw [List.length_insertionSort]
    simpa using h.length_eq
  have hsum : (l.insertionSort (· ≤ ·)).sum = a + b := by
    have hp : (l.insertionSort (· ≤ ·)).Perm [a, b] :=
      (List.perm_insertionSort _ _).trans h
    simpa using hp.sum_eq
  rcases hs : l.insertionSort (· ≤ ·) with _ | ⟨c, rest⟩
  · rw [hs] at hlen; simp at hlen
  · rcases rest with _ | ⟨e, rest2⟩
    · rw [hs] at hlen; simp at hlen
    · rcases rest2 with _ | ⟨e2, rest3⟩
      · rw [hs] at hsum
        simp only [List.sum_cons, List.sum_nil, add_zero] at hsum
        simp only [median, hs]
        simp [hsum]
      · rw [hs] at hlen; simp at hlen

/-! ## The EEG analysis pipeline (`EEG` class, `src/neurocapture/analysis/eeg.py`) -/

/-- The `EEGBandType` enumeration of the source. -/
inductive EEGBandType
  | alpha | beta | delta | theta | kappa | lambd | mu
deriving DecidableEq

/-- The `.value` string of each `EEGBandType` member. -/
def bandValue : EEGBandType → String
  | .alpha => "alpha"
  | .beta => "beta"
  | .delta => "delta"
  | .theta => "theta"
  | .kappa => "kappa"
  | .lambd => "lambd"
  | .mu => "mu"

/-- `EEG.eeg_band_ranges`, the default band dictionary.  `kappa` and `lambd`
have no registered interval (their entries are commented out in the source). -/
def eeg_band_ranges : EEGBandType → Option (ℚ × ℚ)
  | .delta => some (1/2, 4)
  | .theta => some (4, 8)
  | .alpha => some (8, 13)
  | .beta => some (13, 30)
  | .mu => some (8, 13)
  | .kappa => none
  | .lambd => none

/-- `EEG.filter_range`, the confining band in Hz. -/
def filter_range : ℚ × ℚ := (1/2, 40)

/-- `EEG.fft_soft_threshold_factor`. -/
def fft_soft_threshold_factor : ℚ := 3

instance : DecidableRel (fun p q : ℚ × ℚ => p.1 ≤ q.1) :=
  fun p q => inferInstanceAs (Decidable (p.1 ≤ q.1))

/-- `df.sort_values("time", kind="mergesort")`: a stable sort by time.  Any
stable sort produces the same list, so an insertion sort stands in for the
source's mergesort. -/
def sortStage (l : List (ℚ × ℚ)) : List (ℚ × ℚ) :=
  l.insertionSort (fun p q => p.1 ≤ q.1)

/-- The amplitudes of the rows sharing the exact time value `t`
(`df.groupby("time")` groups rows by exact equality, amplitudes keep their
row order). -/
def ampsAt (t : ℚ) (l : List (ℚ × ℚ)) : List ℚ :=
  (l.filter (fun p => decide (p.1 = t))).map Prod.snd

/-- Step 1 of `EEG.analyze`:
`df.groupby("time", as_index=False, sort=True).agg(amp=("amp", "median"))` —
one row per distinct time value, keys ascending, amplitude the group median.
(The source's subsequent re-sort by time is a no-op because groupby with
sort=True already emits ascending keys.) -/
def dedupStage (l : List (ℚ × ℚ)) : List (ℚ × ℚ) :=
  ((l.map Prod.fst).dedup.insertionSort (· ≤ ·)).map
    (fun t => (t, median (ampsAt t l)))

/-- Boolean row selection, `df.loc[mask]`. -/
def applyMask : List Bool → List (ℚ × ℚ) → List (ℚ × ℚ)
  | b :: bs, x :: xs => if b then x :: applyMask bs xs else applyMask bs xs
  | _, _ => []

/-- Step 2 of `EEG.analyze`: `diffs = df["time"].diff();
mask = (diffs > 0) | diffs.isna(); df = df.loc[mask]`, executed only when the
frame has at least two rows.  Each row is compared with the previous row of
the frame (the first row's difference is NA, hence kept). -/
def dropNonMonoStage (l : List (ℚ × ℚ)) : List (ℚ × ℚ) :=
  if l.length < 2 then l
  else applyMask (true :: l.zipWith (fun p q => decide (p.1 < q.1)) l.tail) l

/-- The full cleaning chain of `EEG.analyze` (sort, deduplicate, drop
non-monotonic steps). -/
def cleanSeries (l : List (ℚ × ℚ)) : List (ℚ × ℚ) :=
  dropNonMonoStage (dedupStage (sortStage l))

/-- Successive differences `np.diff(t)`. -/
def seriesDiffs (t : List ℚ) : List ℚ :=
  t.zipWith (fun a b => b - a) t.tail

/-- `np.arange(start, stop, step)` for the call
`np.arange(t[0], t[-1] + 0.5*dt, dt)`: the values `start, start+step, …`
strictly below `stop`; empty when the step is not positive (never reached by
the source: `dt` is positive whenever the grid is built). -/
def arange (start stop step : ℚ) : List ℚ :=
  let n : ℕ := if 0 < step then (⌈(stop - start) / step⌉).toNat else 0
  (List.range n).map (fun i => start + (i : ℚ) * step)

/-- `np.interp(v, t, x)` with the knots given as (time, amplitude) pairs:
clamp below the first and above the last knot, linear interpolation between
consecutive knots.  (Knot times are strictly increasing at the call site, so
the zero-denominator convention of `ℚ` division is never exercised.) -/
def interpPoints : List (ℚ × ℚ) → ℚ → ℚ
  | [], _ => 0
  | [p], _ => p.2
  | p :: q :: rest, v =>
    if v ≤ p.1 then p.2
    else if v ≤ q.1 then p.2 + (q.2 - p.2) * (v - p.1) / (q.1 - p.1)
    else interpPoints (q :: rest) v

/-- `scipy.integrate.trapezoid(y, x)` over the paired list
`[(x₀,y₀), (x₁,y₁), …]`: `Σᵢ (xᵢ₊₁ - xᵢ)·(yᵢ + yᵢ₊₁)/2`. -/
def trapezoid : List (ℚ × ℚ) → ℚ
  | p :: q :: rest => (q.1 - p.1) * (p.2 + q.2) / 2 + trapezoid (q :: rest)
  | _ => 0

/-- `total_power = float(trapezoid(pxx, f))`. -/
def totalPower (f pxx : List ℚ) : ℚ := trapezoid (f.zip pxx)

/-- `band_mask = (f >= band_lo) & (f < band_hi)` and
`band_power = float(trapezoid(pxx[band_mask], f[band_mask]))
if band_mask.sum() >= 2 else 0.0`. -/
def bandPower (lo hi : ℚ) (f pxx : List ℚ) : ℚ :=
  let masked := (f.zip pxx).filter (fun p => decide (lo ≤ p.1) && decide (p.1 < hi))
  if 2 ≤ masked.length then trapezoid masked else 0

/-- `relative = float(band_power / total_power) if total_power > 0 else 0.0`. -/
def relativePower (total band : ℚ) : ℚ := if 0 < total then band / total else 0

/-- The `stage` dictionary filled in during a run. -/
structure StageDiagnostics where
  duplicatesRemoved : ℕ
  nonmonotonicRemoved : ℕ
  interpolationDt : ℚ
  fsEstimated : ℚ
  nRegular : ℕ
deriving DecidableEq

/-- The dictionary returned by `EEG.analyze`: either a data-quality failure
report `{"ok": False, "reason": …, "n": …}` or the full success report. -/
inductive AnalysisReport
  | failure (reason : String) (n : ℕ)
  | success (band : String) (bandRangeHz : ℚ × ℚ) (fsHz : ℚ) (durationS : ℚ)
      (nSamples : ℕ) (total band_power relative : ℚ)
      (psdF psdPxx : List ℚ) (stages : StageDiagnostics)
deriving DecidableEq

/-- Structural errors raised (not returned) by `EEG.analyze`. -/
inductive AnalysisError
  | undefinedBandRange (band : String)
deriving DecidableEq

/-- The body of `EEG.analyze` after the band-range lookup: the numeric
pipeline from the raw normalized series to the report.  The three scipy/numpy
stages that are external black boxes — the FFT denoiser, the Butterworth
band-pass (`EEG._bandpass_zero_phase`) and the Welch PSD (`scipy.signal.welch`)
— enter as explicit function parameters `denoiseFn`, `bandpassFn`, `welchFn`;
every other operation is translated directly. -/
def analyzeNumeric (denoiseFn : ℚ → List ℚ → List ℚ)
    (bandpassFn : List ℚ → ℚ → ℚ × ℚ → List ℚ)
    (welchFn : List ℚ → ℚ → ℕ → List ℚ × List ℚ)
    (bandName : String) (bandLo bandHi : ℚ)
    (series : List (ℚ × ℚ)) : AnalysisReport :=
  let sorted := sortStage series
  let deduped := dedupStage sorted
  let cleaned := dropNonMonoStage deduped
  if cleaned.length < 8 then
    AnalysisReport.failure "not_enough_samples_after_cleaning" cleaned.length
  else
    let t := cleaned.map Prod.fst
    let dtMed := median (seriesDiffs t)
    let dt := if dtMed ≤ 0 then
        (t.getLastD 0 - t.headD 0) / ((max 1 (t.length - 1) : ℕ) : ℚ)
      else dtMed
    let tReg := arange (t.headD 0) (t.getLastD 0 + dt / 2) dt
    let xReg := tReg.map (interpPoints cleaned)
    let fs := 1 / dt
    let xDen := denoiseFn fft_soft_threshold_factor xReg
    let xBp := bandpassFn xDen fs filter_range
    if xBp.length < 16 then
      AnalysisReport.failure "not_enough_samples_after_filters" xBp.length
    else
      let nperseg := (⌊min 2048 (max 256 (2 * fs))⌋).toNat
      let fp := welchFn xBp fs nperseg
      let totalP := totalPower fp.1 fp.2
      let bandP := bandPower bandLo bandHi fp.1 fp.2
      AnalysisReport.success bandName (bandLo, bandHi) fs
        (tReg.getLastD 0 - tReg.headD 0) xBp.length totalP bandP
        (relativePower totalP bandP) fp.1 fp.2
        ⟨sorted.length - deduped.length, deduped.length - cleaned.length,
          dt, fs, tReg.length⟩

/-- `EEG.analyze`: the band-range lookup happens before any numeric work; an
unregistered band raises (`Except.error`), while data-quality shortfalls are
returned reports inside `Except.ok`. -/
def analyze (denoiseFn : ℚ → List ℚ → List ℚ)
    (bandpassFn : List ℚ → ℚ → ℚ × ℚ → List ℚ)
    (welchFn : List ℚ → ℚ → ℕ → List ℚ × List ℚ)
    (bandType : EEGBandType) (series : List (ℚ × ℚ)) :
    Except AnalysisError AnalysisReport :=
  match eeg_band_ranges bandType with
  | none => Except.error (AnalysisError.undefinedBandRange (bandValue bandType))
  | some r =>
    Except.ok (analyzeNumeric denoiseFn bandpassFn welchFn
      (bandValue bandType) r.1 r.2 series)

/-! ## Cleaning-stage lemmas -/

theorem dedupStage_map_fst (l : List (ℚ × ℚ)) :
    (dedupStage l).map Prod.fst =
      (l.map Prod.fst).dedup.insertionSort (· ≤ ·) := by
  unfold dedupStage
  rw [List.map_map]
  have hid : (Prod.fst ∘ fun t : ℚ => (t, median (ampsAt t l))) = id := rfl
  rw [hid, List.map_id]

/-- The deduplicated frame has strictly increasing time values. -/
theorem dedupStage_fst_sorted_lt (l : List (ℚ × ℚ)) :
    ((dedupStage l).map Prod.fst).Sorted (· < ·) := by
  rw [dedupStage_map_fst]
  apply List.Sorted.lt_of_le
  · exact List.sorted_insertionSort _ _
  · exact ((List.perm_insertionSort _ _).nodup_iff).mpr (List.nodup_dedup _)

theorem zipWith_mask_all_true {l : List (ℚ × ℚ)}
    (h : List.Chain' (fun p q : ℚ × ℚ => p.1 < q.1) l) :
    l.zipWith (fun p q => decide (p.1 < q.1)) l.tail =
      List.replicate (l.length - 1) true := by
  induction l with
  | nil => rfl
  | cons p rest ih =>
    cases rest with
    | nil => rfl
    | cons q r =>
      rw [List.chain'_cons] at h
      have hstep := ih h.2
      simp only [List.tail_cons] at hstep
      simp only [List.tail_cons, List.zipWith_cons_cons]
      rw [decide_eq_true h.1, hstep]
      have hlen : (p :: q :: r).length - 1 = ((q :: r).length - 1) + 1 := by
        simp
      rw [hlen, List.replicate_succ]

theorem applyMask_replicate_true (l : List (ℚ × ℚ)) :
    applyMask (List.replicate l.length true) l = l := by
  induction l with
  | nil => rfl
  | cons x xs ih =>
    simp only [List.length_cons, List.replicate_succ, applyMask, if_true]
    rw [ih]

/-- On a frame with strictly increasing time values the non-monotonic mask
keeps every row. -/
theorem dropNonMonoStage_of_sorted {l : List (ℚ × ℚ)}
    (h : (l.map Prod.fst).Sorted (· < ·)) : dropNonMonoStage l = l := by
  unfold dropNonMonoStage
  by_cases hlen : l.length < 2
  · simp [hlen]
  · simp only [hlen, if_false]
    have hch : List.Chain' (fun p q : ℚ × ℚ => p.1 < q.1) l :=
      (List.pairwise_map.mp h).chain'
    rw [zipWith_mask_all_true hch]
    have h1 : l.length - 1 + 1 = l.length := by omega
    rw [show (true :: List.replicate (l.length - 1) true) =
        List.replicate (l.length - 1 + 1) true from rfl, h1]
    exact applyMask_replicate_true l

theorem cleanSeries_eq_dedup (l : List (ℚ × ℚ)) :
    cleanSeries l = dedupStage (sortStage l) :=
  dropNonMonoStage_of_sorted (dedupStage_fst_sorted_lt _)

theorem filter_eq_of_nodup {l : List ℚ} {t : ℚ} (hnd : l.Nodup) (hmem : t ∈ l) :
    l.filter (fun u => decide (u = t)) = [t] := by
  induction l with
  | nil => simp at hmem
  | cons a rest ih =>
    by_cases hat : a = t
    · subst hat
      have hrest : a ∉ rest := (List.nodup_cons.mp hnd).1
      have hnil : rest.filter (fun u => decide (u = a)) = [] := by
        rw [List.filter_eq_nil_iff]
        intro u hu
        simp only [decide_eq_true_eq]
        intro he
        exact hrest (he ▸ hu)
      simp [List.filter_cons, hnil]
    · have hmem2 : t ∈ rest := by
        rcases List.mem_cons.mp hmem with h1 | h2
        · exact absurd h1.symm hat
        · exact h2
      have ih2 := ih (List.nodup_cons.mp hnd).2 hmem2
      simp only [List.filter_cons, decide_eq_true_eq]
      rw [if_neg hat]
      exact ih2

theorem ampsAt_perm (t : ℚ) {l₁ l₂ : List (ℚ × ℚ)} (h : l₁.Perm l₂) :
    (ampsAt t l₁).Perm (ampsAt t l₂) :=
  (h.filter _).map _

theorem ampsAt_ne_nil_iff (l : List (ℚ × ℚ)) (t : ℚ) :
    ampsAt t l ≠ [] ↔ t ∈ l.map Prod.fst := by
  constructor
  · intro h
    rcases hfil : l.filter (fun p => decide (p.1 = t)) with _ | ⟨p, rest⟩
    · exact absurd (by simp [ampsAt, hfil]) h
    · have hp : p ∈ l.filter (fun p => decide (p.1 = t)) := by
        rw [hfil]; exact List.mem_cons_self _ _
      have := List.mem_filter.mp hp
      exact List.mem_map.mpr ⟨p, this.1, by simpa using this.2⟩
  · intro h hnil
    obtain ⟨p, hp, hpt⟩ := List.mem_map.mp h
    have hmem : p.2 ∈ ampsAt t l :=
      List.mem_map_of_mem _ (List.mem_filter.mpr ⟨hp, by simp [hpt]⟩)
    rw [hnil] at hmem
    simp at hmem

/-- The deduplicated frame has exactly one row for each time value present in
the input, and its amplitude is the median of that time's group. -/
theorem dedupStage_filter_time (l : List (ℚ × ℚ)) (t : ℚ)
    (h : ampsAt t l ≠ []) :
    (dedupStage l).filter (fun p => decide (p.1 = t)) =
      [(t, median (ampsAt t l))] := by
  unfold dedupStage
  rw [List.filter_map]
  have hmemkeys : t ∈ (l.map Prod.fst).dedup.insertionSort (· ≤ ·) := by
    rw [List.mem_insertionSort, List.mem_dedup]
    exact (ampsAt_ne_nil_iff l t).mp h
  have hnd : ((l.map Prod.fst).dedup.insertionSort (· ≤ ·)).Nodup :=
    ((List.perm_insertionSort _ _).nodup_iff).mpr (List.nodup_dedup _)
  have hfil : ((l.map Prod.fst).dedup.insertionSort (· ≤ ·)).filter
      ((fun p : ℚ × ℚ => decide (p.1 = t)) ∘ fun u => (u, median (ampsAt u l))) =
      [t] := by
    have : ((fun p : ℚ × ℚ => decide (p.1 = t)) ∘ fun u => (u, median (ampsAt u l))) =
        fun u => decide (u = t) := rfl
    rw [this]
    exact filter_eq_of_nodup hnd hmemkeys
  rw [hfil]
  rfl

deriving instance DecidableEq for Except

attribute [local semireducible] Rat.add Rat.sub Rat.mul Rat.inv

/-! ## Claims about the cleaning stages and the analyze control flow -/

/-- **C9.** The non-monotonic-drop step never removes a sample: after
deduplication the time values are already strictly increasing, the row mask
keeps every row, and the quantity recorded in the `StageDiagnostics` entry
`nonmonotonic_removed` (the length difference computed by `analyzeNumeric`)
is `0` — the defensive branch is dead. -/
theorem C9_nonmonotonic_drop_dead (series : List (ℚ × ℚ)) :
    dropNonMonoStage (dedupStage (sortStage series)) = dedupStage (sortStage series) ∧
    (dedupStage (sortStage series)).length - (cleanSeries series).length = 0 ∧
    ((dedupStage (sortStage series)).map Prod.fst).Sorted (· < ·) := by
  refine ⟨cleanSeries_eq_dedup series, ?_, dedupStage_fst_sorted_lt _⟩
  rw [cleanSeries_eq_dedup]
  omega

/-- **C4.** For every input with at least 8 valid samples spanning at least 2
distinct timestamps, the cleaning stage produces a series whose time values
are strictly increasing.  (The "no NaN entries" half of the claim is
structural here: the embedded series lives in `ℚ`, where the normalizer has
already dropped every unparsable row, and `ℚ` has no NaN value.) -/
theorem C4_cleaned_times_strictly_increasing (series : List (ℚ × ℚ))
    (h8 : 8 ≤ series.length)
    (h2 : 2 ≤ (series.map Prod.fst).dedup.length) :
    ((cleanSeries series).map Prod.fst).Sorted (· < ·) := by
  rw [cleanSeries_eq_dedup]
  exact dedupStage_fst_sorted_lt _

theorem C4_cleaned_times_strictly_increasing_witness :
    8 ≤ ([((0:ℚ),(1:ℚ)), (1,2), (2,1), (3,2), (4,1), (5,2), (6,1), (7,2)] :
        List (ℚ × ℚ)).length ∧
    2 ≤ (([((0:ℚ),(1:ℚ)), (1,2), (2,1), (3,2), (4,1), (5,2), (6,1), (7,2)] :
        List (ℚ × ℚ)).map Prod.fst).dedup.length ∧
    ((cleanSeries [((0:ℚ),(1:ℚ)), (1,2), (2,1), (3,2), (4,1), (5,2), (6,1), (7,2)]).map
        Prod.fst).Sorted (· < ·) :=
  ⟨by decide, by decide,
    C4_cleaned_times_strictly_increasing _ (by decide) (by decide)⟩

/-- **C3.** Deduplication replaces every group of samples sharing one time
value by a single sample whose amplitude is the group's median; in particular
a group of exactly two amplitudes `a`, `b` at time `t` yields the single
sample `(t, (a+b)/2)` in the cleaned series. -/
theorem C3_dedup_group_median (series : List (ℚ × ℚ)) (t : ℚ)
    (h : ampsAt t series ≠ []) :
    (cleanSeries series).filter (fun p => decide (p.1 = t)) =
      [(t, median (ampsAt t series))] ∧
    ∀ a b : ℚ, (ampsAt t series).Perm [a, b] →
      (cleanSeries series).filter (fun p => decide (p.1 = t)) = [(t, (a + b) / 2)] := by
  have hperm : (ampsAt t (sortStage series)).Perm (ampsAt t series) :=
    ampsAt_perm t (List.perm_insertionSort _ _)
  have hne : ampsAt t (sortStage series) ≠ [] := by
    intro hnil
    rw [hnil] at hperm
    exact h hperm.symm.eq_nil
  have hmain : (cleanSeries series).filter (fun p => decide (p.1 = t)) =
      [(t, median (ampsAt t series))] := by
    rw [cleanSeries_eq_dedup, dedupStage_filter_time _ t hne, median_perm hperm]
  refine ⟨hmain, fun a b hab => ?_⟩
  rw [hmain, median_pair hab]

theorem C3_dedup_group_median_witness :
    ampsAt 1 [((1:ℚ),(2:ℚ)), (1,4), (0,9)] ≠ [] ∧
    ((cleanSeries [((1:ℚ),(2:ℚ)), (1,4), (0,9)]).filter
        (fun p => decide (p.1 = 1)) =
      [(1, median (ampsAt 1 [((1:ℚ),(2:ℚ)), (1,4), (0,9)]))] ∧
    ∀ a b : ℚ, (ampsAt 1 [((1:ℚ),(2:ℚ)), (1,4), (0,9)]).Perm [a, b] →
      (cleanSeries [((1:ℚ),(2:ℚ)), (1,4), (0,9)]).filter
        (fun p => decide (p.1 = 1)) = [(1, (a + b) / 2)]) :=
  ⟨by decide, C3_dedup_group_median _ 1 (by decide)⟩

/-- **C2.** For every band identifier with no registered interval and every
input series, `analyze` raises the undefined-band-range error naming the
missing identifier before any numeric work (the result does not depend on the
series at all), and never falls back to a default interval. -/
theorem C2_undefined_band_raises (denoiseFn : ℚ → List ℚ → List ℚ)
    (bandpassFn : List ℚ → ℚ → ℚ × ℚ → List ℚ)
    (welchFn : List ℚ → ℚ → ℕ → List ℚ × List ℚ)
    (bandType : EEGBandType) (series : List (ℚ × ℚ))
    (hband : eeg_band_ranges bandType = none) :
    analyze denoiseFn bandpassFn welchFn bandType series =
      Except.error (AnalysisError.undefinedBandRange (bandValue bandType)) := by
  unfold analyze
  rw [hband]

theorem C2_undefined_band_raises_witness :
    eeg_band_ranges EEGBandType.kappa = none ∧
    analyze (fun _ x => x) (fun x _ _ => x) (fun x _ _ => (x, x))
        EEGBandType.kappa [((0:ℚ),(1:ℚ))] =
      Except.error (AnalysisError.undefinedBandRange (bandValue EEGBandType.kappa)) :=
  ⟨by decide, C2_undefined_band_raises _ _ _ _ _ (by decide)⟩

/-- **C1 (counterexample).** On a table whose cleaned series has exactly 7
samples, the failure report's reason code is
`"not_enough_samples_after_cleaning"`, not the spec's literal
`"insufficient samples after cleaning"`. -/
theorem C1_reason_string_counterexample :
    (cleanSeries [((0:ℚ),(1:ℚ)), (1,1), (2,1), (3,1), (4,1), (5,1), (6,1)]).length = 7 ∧
    analyze (fun _ x => x) (fun x _ _ => x) (fun x _ _ => (x, x)) EEGBandType.alpha
        [((0:ℚ),(1:ℚ)), (1,1), (2,1), (3,1), (4,1), (5,1), (6,1)] ≠
      Except.ok (AnalysisReport.failure "insufficient samples after cleaning" 7) ∧
    analyze (fun _ x => x) (fun x _ _ => x) (fun x _ _ => (x, x)) EEGBandType.alpha
        [((0:ℚ),(1:ℚ)), (1,1), (2,1), (3,1), (4,1), (5,1), (6,1)] =
      Except.ok (AnalysisReport.failure "not_enough_samples_after_cleaning" 7) :=
  ⟨by decide, by decide, by decide⟩

/-- **C1 (amended).** For every registered band and every input whose cleaned
series has fewer than 8 samples (in particular exactly 7), `analyze`
terminates with the returned report
`{ok: False, reason: "not_enough_samples_after_cleaning", n: <count>}` —
a structured report, not a raised error. -/
theorem C1_gateA_failure_report (denoiseFn : ℚ → List ℚ → List ℚ)
    (bandpassFn : List ℚ → ℚ → ℚ × ℚ → List ℚ)
    (welchFn : List ℚ → ℚ → ℕ → List ℚ × List ℚ)
    (bandType : EEGBandType) (r : ℚ × ℚ) (series : List (ℚ × ℚ))
    (hband : eeg_band_ranges bandType = some r)
    (hlen : (cleanSeries series).length < 8) :
    analyze denoiseFn bandpassFn welchFn bandType series =
      Except.ok (AnalysisReport.failure "not_enough_samples_after_cleaning"
        (cleanSeries series).length) := by
  unfold analyze
  rw [hband]
  have hlen2 : (dropNonMonoStage (dedupStage (sortStage series))).length < 8 := hlen
  simp only [analyzeNumeric]
  rw [if_pos hlen2]
  rfl

theorem C1_gateA_failure_report_witness :
    eeg_band_ranges EEGBandType.alpha = some (8, 13) ∧
    (cleanSeries [((0:ℚ),(1:ℚ)), (1,1), (2,1), (3,1), (4,1), (5,1), (6,1)]).length < 8 ∧
    analyze (fun _ x => x) (fun x _ _ => x) (fun x _ _ => (x, x)) EEGBandType.alpha
        [((0:ℚ),(1:ℚ)), (1,1), (2,1), (3,1), (4,1), (5,1), (6,1)] =
      Except.ok (AnalysisReport.failure "not_enough_samples_after_cleaning"
        (cleanSeries [((0:ℚ),(1:ℚ)), (1,1), (2,1), (3,1), (4,1), (5,1), (6,1)]).length) :=
  ⟨by decide, by decide,
    C1_gateA_failure_report _ _ _ EEGBandType.alpha (8, 13) _ (by decide) (by decide)⟩

/-- Erase the band-identifier field of a report (used to compare reports up
to the selected band name). -/
def stripBandName : AnalysisReport → AnalysisReport
  | .failure reason n => .failure reason n
  | .success _ br fs dur n tp bp rel f pxx st => .success "" br fs dur n tp bp rel f pxx st

theorem stripBandName_analyzeNumeric (denoiseFn : ℚ → List ℚ → List ℚ)
    (bandpassFn : List ℚ → ℚ → ℚ × ℚ → List ℚ)
    (welchFn : List ℚ → ℚ → ℕ → List ℚ × List ℚ)
    (name₁ name₂ : String) (lo hi : ℚ) (series : List (ℚ × ℚ)) :
    stripBandName (analyzeNumeric denoiseFn bandpassFn welchFn name₁ lo hi series) =
      stripBandName (analyzeNumeric denoiseFn bandpassFn welchFn name₂ lo hi series) := by
  simp only [analyzeNumeric]
  repeat' split
  all_goals rfl

/-- **C10.** Under the default band table, `mu` and `alpha` map to the same
interval `(8, 13)` Hz, and analyzing any input with `mu` produces a report
that agrees with the `alpha` report in every field except the band identifier
itself. -/
theorem C10_mu_alpha_equal_reports (denoiseFn : ℚ → List ℚ → List ℚ)
    (bandpassFn : List ℚ → ℚ → ℚ × ℚ → List ℚ)
    (welchFn : List ℚ → ℚ → ℕ → List ℚ × List ℚ)
    (series : List (ℚ × ℚ)) :
    eeg_band_ranges EEGBandType.mu = some (8, 13) ∧
    eeg_band_ranges EEGBandType.alpha = some (8, 13) ∧
    (analyze denoiseFn bandpassFn welchFn EEGBandType.mu series).map stripBandName =
      (analyze denoiseFn bandpassFn welchFn EEGBandType.alpha series).map stripBandName := by
  refine ⟨rfl, rfl, ?_⟩
  show Except.ok (stripBandName (analyzeNumeric denoiseFn bandpassFn welchFn "mu" 8 13 series)) =
    Except.ok (stripBandName (analyzeNumeric denoiseFn bandpassFn welchFn "alpha" 8 13 series))
  rw [stripBandName_analyzeNumeric denoiseFn bandpassFn welchFn "mu" "alpha" 8 13 series]

/-! ## Claim C6: relative band power -/

theorem trapezoid_nonneg : ∀ l : List (ℚ × ℚ),
    l.Pairwise (fun p q => p.1 ≤ q.1) → (∀ p ∈ l, 0 ≤ p.2) → 0 ≤ trapezoid l := by
  intro l
  induction l with
  | nil => intro _ _; simp [trapezoid]
  | cons p rest ih =>
    intro hp hnn
    cases rest with
    | nil => simp [trapezoid]
    | cons q r =>
      have hcons := List.pairwise_cons.mp hp
      have h1 : p.1 ≤ q.1 := hcons.1 q (by simp)
      have h2 : 0 ≤ p.2 := hnn p (by simp)
      have h3 : 0 ≤ q.2 := hnn q (by simp)
      have h4 : 0 ≤ trapezoid (q :: r) :=
        ih hcons.2 (fun x hx => hnn x (List.mem_cons_of_mem _ hx))
      have hbridge : 0 ≤ (q.1 - p.1) * (p.2 + q.2) / 2 := by
        apply div_nonneg _ (by norm_num)
        exact mul_nonneg (by linarith) (by linarith)
      show 0 ≤ (q.1 - p.1) * (p.2 + q.2) / 2 + trapezoid (q :: r)
      linarith

theorem trapezoid_cons_le (p : ℚ × ℚ) (rest : List (ℚ × ℚ))
    (hp : (p :: rest).Pairwise (fun p q => p.1 ≤ q.1))
    (hnn : ∀ x ∈ p :: rest, 0 ≤ x.2) :
    trapezoid rest ≤ trapezoid (p :: rest) := by
  cases rest with
  | nil => simp [trapezoid]
  | cons q r =>
    have hcons := List.pairwise_cons.mp hp
    have h1 : p.1 ≤ q.1 := hcons.1 q (by simp)
    have h2 : 0 ≤ p.2 := hnn p (by simp)
    have h3 : 0 ≤ q.2 := hnn q (by simp)
    have hbridge : 0 ≤ (q.1 - p.1) * (p.2 + q.2) / 2 := by
      apply div_nonneg _ (by norm_num)
      exact mul_nonneg (by linarith) (by linarith)
    show trapezoid (q :: r) ≤ (q.1 - p.1) * (p.2 + q.2) / 2 + trapezoid (q :: r)
    linarith

/-- On a list ordered by first component with non-negative second components,
the trapezoid over the rows selected by an interval mask is at most the
trapezoid over all rows (the selected rows are a contiguous run, so every
masked sub-trapezoid is one of the full trapezoids). -/
theorem trapezoid_filter_band_le (lo hi : ℚ) : ∀ l : List (ℚ × ℚ),
    l.Pairwise (fun p q => p.1 ≤ q.1) → (∀ p ∈ l, 0 ≤ p.2) →
    trapezoid (l.filter (fun p => decide (lo ≤ p.1) && decide (p.1 < hi))) ≤
      trapezoid l := by
  intro l
  induction l with
  | nil => intro _ _; simp [trapezoid]
  | cons p rest ih =>
    intro hp hnn
    have hcons := List.pairwise_cons.mp hp
    have hnn2 : ∀ x ∈ rest, 0 ≤ x.2 := fun x hx => hnn x (List.mem_cons_of_mem _ hx)
    by_cases hPp : (decide (lo ≤ p.1) && decide (p.1 < hi)) = true
    · cases rest with
      | nil =>
        simp only [List.filter_cons, hPp, if_true, List.filter_nil]
        exact le_refl _
      | cons q r =>
        by_cases hPq : (decide (lo ≤ q.1) && decide (q.1 < hi)) = true
        · have hfil : (q :: r).filter (fun p => decide (lo ≤ p.1) && decide (p.1 < hi)) =
              q :: r.filter (fun p => decide (lo ≤ p.1) && decide (p.1 < hi)) := by
            simp [List.filter_cons, hPq]
          have hstep := ih hcons.2 hnn2
          rw [hfil] at hstep
          simp only [List.filter_cons, hPp, hPq, if_true]
          show (q.1 - p.1) * (p.2 + q.2) / 2 +
              trapezoid (q :: r.filter (fun p => decide (lo ≤ p.1) && decide (p.1 < hi))) ≤
            (q.1 - p.1) * (p.2 + q.2) / 2 + trapezoid (q :: r)
          linarith
        · have hband_p : lo ≤ p.1 ∧ p.1 < hi := by
            have := hPp
            simp only [Bool.and_eq_true, decide_eq_true_eq] at this
            exact this
          have hpq : p.1 ≤ q.1 := hcons.1 q (by simp)
          have hqhi : hi ≤ q.1 := by
            by_contra hcon
            push_neg at hcon
            apply hPq
            simp only [Bool.and_eq_true, decide_eq_true_eq]
            exact ⟨le_trans hband_p.1 hpq, hcon⟩
          have hfilnil : (q :: r).filter
              (fun p => decide (lo ≤ p.1) && decide (p.1 < hi)) = [] := by
            rw [List.filter_eq_nil_iff]
            intro z hz
            have hqz : q.1 ≤ z.1 := by
              rcases List.mem_cons.mp hz with rfl | hz2
              · exact le_refl _
              · exact (List.pairwise_cons.mp hcons.2).1 z hz2
            simp only [Bool.and_eq_true, decide_eq_true_eq, not_and, not_lt]
            intro _
            linarith
          simp only [List.filter_cons, hPp, if_true, hfilnil]
          show trapezoid [p] ≤ trapezoid (p :: q :: r)
          have : trapezoid [p] = 0 := rfl
          rw [this]
          exact trapezoid_nonneg _ hp hnn
    · simp only [List.filter_cons, hPp]
      rw [if_neg (by simp [hPp])]
      calc trapezoid (rest.filter (fun p => decide (lo ≤ p.1) && decide (p.1 < hi))) ≤
          trapezoid rest := ih hcons.2 hnn2
      _ ≤ trapezoid (p :: rest) := trapezoid_cons_le p rest hp hnn

theorem pairwise_zip_fst (f pxx : List ℚ) (hf : f.Pairwise (· < ·)) :
    (f.zip pxx).Pairwise (fun p q : ℚ × ℚ => p.1 ≤ q.1) := by
  rw [List.pairwise_iff_getElem] at hf ⊢
  intro i j hi hj hij
  have hlen : (f.zip pxx).length = min f.length pxx.length := List.length_zip f pxx
  have hif : i < f.length := by rw [hlen] at hi; omega
  have hjf : j < f.length := by rw [hlen] at hj; omega
  have hip : i < pxx.length := by rw [hlen] at hi; omega
  have hjp : j < pxx.length := by rw [hlen] at hj; omega
  have hzi : (f.zip pxx)[i] = (f[i], pxx[i]) := List.getElem_zip
  have hzj : (f.zip pxx)[j] = (f[j], pxx[j]) := List.getElem_zip
  rw [hzi, hzj]
  exact le_of_lt (hf i j hif hjf hij)

theorem zip_snd_nonneg (f pxx : List ℚ) (hp : ∀ a ∈ pxx, 0 ≤ a) :
    ∀ p ∈ f.zip pxx, 0 ≤ p.2 := by
  intro p hmem
  rcases p with ⟨a, b⟩
  exact hp b (List.of_mem_zip hmem).2

/-- Core fact about the band-power integrator: with a strictly increasing
frequency vector and a non-negative power vector, the relative power is the
quotient (in `[0,1]`) when the total is positive, and exactly `0`
otherwise. -/
theorem relativePower_bounds (lo hi : ℚ) (f pxx : List ℚ)
    (hf : f.Pairwise (· < ·)) (hp : ∀ a ∈ pxx, 0 ≤ a) :
    (0 < totalPower f pxx →
      relativePower (totalPower f pxx) (bandPower lo hi f pxx) =
        bandPower lo hi f pxx / totalPower f pxx ∧
      0 ≤ relativePower (totalPower f pxx) (bandPower lo hi f pxx) ∧
      relativePower (totalPower f pxx) (bandPower lo hi f pxx) ≤ 1) ∧
    (totalPower f pxx ≤ 0 →
      relativePower (totalPower f pxx) (bandPower lo hi f pxx) = 0) := by
  have hzip_pw := pairwise_zip_fst f pxx hf
  have hzip_nn := zip_snd_nonneg f pxx hp
  have hband_nn : 0 ≤ bandPower lo hi f pxx := by
    simp only [bandPower]
    split
    · exact trapezoid_nonneg _ (hzip_pw.filter _)
        (fun p hp3 => hzip_nn p (List.mem_of_mem_filter hp3))
    · exact le_refl 0
  have hband_le : 0 ≤ totalPower f pxx → bandPower lo hi f pxx ≤ totalPower f pxx := by
    intro ht
    simp only [bandPower]
    split
    · exact trapezoid_filter_band_le lo hi _ hzip_pw hzip_nn
    · exact ht
  constructor
  · intro htpos
    have hrel : relativePower (totalPower f pxx) (bandPower lo hi f pxx) =
        bandPower lo hi f pxx / totalPower f pxx := by
      unfold relativePower
      rw [if_pos htpos]
    refine ⟨hrel, ?_, ?_⟩
    · rw [hrel]
      exact div_nonneg hband_nn (le_of_lt htpos)
    · rw [hrel, div_le_one htpos]
      exact hband_le (le_of_lt htpos)
  · intro htnonpos
    unfold relativePower
    rw [if_neg (not_lt.mpr htnonpos)]

/-- **C6.** On every successful analysis whose PSD vectors satisfy the Welch
contract (strictly increasing frequencies, non-negative powers), the reported
relative band power equals band power / total power and lies in `[0, 1]` when
the total power is strictly positive, and is exactly `0` otherwise. -/
theorem C6_relative_band_power (denoiseFn : ℚ → List ℚ → List ℚ)
    (bandpassFn : List ℚ → ℚ → ℚ × ℚ → List ℚ)
    (welchFn : List ℚ → ℚ → ℕ → List ℚ × List ℚ)
    (bandType : EEGBandType) (series : List (ℚ × ℚ))
    (band : String) (bandRange : ℚ × ℚ) (fs dur : ℚ) (n : ℕ)
    (total bandP rel : ℚ) (f pxx : List ℚ) (st : StageDiagnostics)
    (hrun : analyze denoiseFn bandpassFn welchFn bandType series =
      Except.ok (AnalysisReport.success band bandRange fs dur n total bandP rel
        f pxx st))
    (hf : f.Pairwise (· < ·)) (hp : ∀ a ∈ pxx, 0 ≤ a) :
    (0 < total → rel = bandP / total ∧ 0 ≤ rel ∧ rel ≤ 1) ∧
    (total ≤ 0 → rel = 0) := by
  unfold analyze at hrun
  cases hbr : eeg_band_ranges bandType with
  | none =>
    rw [hbr] at hrun
    exact absurd hrun (by simp)
  | some r =>
    rw [hbr] at hrun
    have hnum : analyzeNumeric denoiseFn bandpassFn welchFn (bandValue bandType)
        r.1 r.2 series =
        AnalysisReport.success band bandRange fs dur n total bandP rel f pxx st :=
      Except.ok.inj hrun
    simp only [analyzeNumeric] at hnum
    repeat' split at hnum
    all_goals first
      | exact AnalysisReport.noConfusion hnum
      | (injection hnum with h1 h2 h3 h4 h5 htp hbp hrel hfeq hpxxeq hst
         subst h1 h2 h3 h4 h5 htp hbp hrel hfeq hpxxeq hst
         exact relativePower_bounds r.1 r.2 _ _ hf hp)

theorem C6_relative_band_power_witness :
    analyze (fun _ x => x) (fun _ _ _ => List.replicate 16 0)
        (fun _ _ _ => ([0, 10], [1, 1])) EEGBandType.alpha
        [((0:ℚ),(1:ℚ)), (1,1), (2,1), (3,1), (4,1), (5,1), (6,1), (7,1)] =
      Except.ok (AnalysisReport.success "alpha" (8, 13) 1 7 16 10 0 0 [0, 10] [1, 1]
        ⟨0, 0, 1, 1, 8⟩) ∧
    ([(0:ℚ), 10]).Pairwise (· < ·) ∧
    (∀ a ∈ [(1:ℚ), 1], 0 ≤ a) ∧
    (((0:ℚ) < 10 → (0:ℚ) = 0 / 10 ∧ (0:ℚ) ≤ 0 ∧ (0:ℚ) ≤ 1) ∧
      ((10:ℚ) ≤ 0 → (0:ℚ) = 0)) :=
  ⟨by decide, by decide, by decide,
    C6_relative_band_power (fun _ x => x) (fun _ _ _ => List.replicate 16 0)
      (fun _ _ _ => ([0, 10], [1, 1])) EEGBandType.alpha
      [((0:ℚ),(1:ℚ)), (1,1), (2,1), (3,1), (4,1), (5,1), (6,1), (7,1)]
      "alpha" (8, 13) 1 7 16 10 0 0 [0, 10] [1, 1] ⟨0, 0, 1, 1, 8⟩
      (by decide) (by decide) (by decide)⟩

/-! ## Claim C7: the series normalizer (`EEG.__init__`, lines 57–71) -/

/-- The resolved time column as seen by `EEG.__init__`: its pandas dtype
(date/time-typed or not) and its cell values.  A cell is `some q` when the
value is (or parses to) the number `q` — for a date/time column, `q` is the
timestamp on an absolute scale in seconds — and `none` when it is a
missing/unparsable value (`NaN`/`NaT`, or text that `pd.to_numeric(…,
errors="coerce")` turns into `NaN`). -/
structure RawColumn where
  isDatetime : Bool
  vals : List (Option ℚ)
deriving DecidableEq

/-- The normalization stage of `EEG.__init__`:

* if the time column is date/time-typed, take `t0 = …iloc[0]` — an indexing
  error on a zero-row table — and replace each timestamp by the elapsed
  seconds since `t0` (`NaT` anywhere, including at `t0`, propagates to the
  invalid marker);
* otherwise coerce the time values to float (already reflected in the
  `Option ℚ` encoding, matching `pd.to_numeric(…, errors="coerce")`);
* coerce amplitudes the same way and drop every row where either value is
  invalid (`dropna(subset=["time", "amp"])`). -/
def normalizeSeries (time : RawColumn) (amp : List (Option ℚ)) :
    Except String (List (ℚ × ℚ)) :=
  let timeVals : Except String (List (Option ℚ)) :=
    if time.isDatetime then
      match time.vals with
      | [] => Except.error "single positional indexer is out-of-bounds"
      | v0 :: _ =>
        Except.ok (time.vals.map (fun v =>
          match v0, v with
          | some t0, some tv => some (tv - t0)
          | _, _ => none))
    else Except.ok time.vals
  timeVals.map (fun ts =>
    (ts.zip amp).filterMap (fun p =>
      match p.1, p.2 with
      | some tv, some av => some (tv, av)
      | _, _ => none))

/-- **C7 (counterexample).** On a zero-row table whose resolved time column is
date/time-typed, the normalization stage fails (pandas raises `IndexError`
from `…iloc[0]`): it is not failure-free on every input with resolved
columns. -/
theorem C7_normalizer_can_fail_counterexample :
    normalizeSeries ⟨true, []⟩ [] =
      Except.error "single positional indexer is out-of-bounds" := rfl

/-- **C7 (amended).** For every input whose time column is not date/time-typed
— and for every date/time-typed input with at least one row — the
normalization stage succeeds and only shrinks the series: the result has at
most as many rows as either input column, potentially zero. -/
theorem C7_normalizer_total_and_shrinking (time : RawColumn)
    (amp : List (Option ℚ))
    (h : time.isDatetime = false ∨ time.vals ≠ []) :
    ∃ rows : List (ℚ × ℚ),
      normalizeSeries time amp = Except.ok rows ∧
      rows.length ≤ time.vals.length ∧ rows.length ≤ amp.length := by
  obtain ⟨dt, vals⟩ := time
  simp only at h
  cases dt with
  | false =>
    refine ⟨_, rfl, ?_, ?_⟩
    · refine le_trans (List.length_filterMap_le _ _) ?_
      rw [List.length_zip]
      exact Nat.min_le_left _ _
    · refine le_trans (List.length_filterMap_le _ _) ?_
      rw [List.length_zip]
      exact Nat.min_le_right _ _
  | true =>
    cases vals with
    | nil =>
      rcases h with h1 | h2
      · exact absurd h1 (by simp)
      · exact absurd rfl h2
    | cons v0 rest =>
      refine ⟨_, rfl, ?_, ?_⟩
      · refine le_trans (List.length_filterMap_le _ _) ?_
        rw [List.length_zip, List.length_map]
        exact Nat.min_le_left _ _
      · refine le_trans (List.length_filterMap_le _ _) ?_
        rw [List.length_zip, List.length_map]
        exact Nat.min_le_right _ _

theorem C7_normalizer_total_and_shrinking_witness :
    ((⟨false, [some 1, none, some 3]⟩ : RawColumn).isDatetime = false ∨
      (⟨false, [some 1, none, some 3]⟩ : RawColumn).vals ≠ []) ∧
    ∃ rows : List (ℚ × ℚ),
      normalizeSeries ⟨false, [some 1, none, some 3]⟩ [some 5, some 6, none] =
        Except.ok rows ∧
      rows.length ≤ (⟨false, [some 1, none, some 3]⟩ : RawColumn).vals.length ∧
      rows.length ≤ ([some 5, some 6, none] : List (Option ℚ)).length :=
  ⟨Or.inl rfl,
    C7_normalizer_total_and_shrinking ⟨false, [some 1, none, some 3]⟩
      [some 5, some 6, none] (Or.inl rfl)⟩

/-! ## Claim C8: time-column resolution (`EEG._deduce_columns`, lines 177–194) -/

/-- Python `str.lower` on one character, restricted to the alphabet relevant
to the resolver: ASCII letters and the Cyrillic capitals occurring in the
priority list.  Python's `str.lower` never outputs an uppercase letter, which
is the property the dead-entry argument below rests on. -/
def pyLowerChar : Char → Char
  | 'A' => 'a' | 'B' => 'b' | 'C' => 'c' | 'D' => 'd' | 'E' => 'e' | 'F' => 'f'
  | 'G' => 'g' | 'H' => 'h' | 'I' => 'i' | 'J' => 'j' | 'K' => 'k' | 'L' => 'l'
  | 'M' => 'm' | 'N' => 'n' | 'O' => 'o' | 'P' => 'p' | 'Q' => 'q' | 'R' => 'r'
  | 'S' => 's' | 'T' => 't' | 'U' => 'u' | 'V' => 'v' | 'W' => 'w' | 'X' => 'x'
  | 'Y' => 'y' | 'Z' => 'z'
  | 'В' => 'в' | 'Р' => 'р' | 'Е' => 'е' | 'М' => 'м' | 'Я' => 'я' | 'С' => 'с'
  | c => c

/-- Python `str.lower` on a column name (names as character lists). -/
def pyLower (s : List Char) : List Char := s.map pyLowerChar

/-- One column of the input table: its name and whether its dtype is numeric
respectively date/time-typed. -/
structure TableColumn where
  name : List Char
  isNumeric : Bool
  isDatetime : Bool

/-- The priority list of `EEG._deduce_columns` (source line 179), including
the localized synonyms `"Время"` and `"Время (с)"`. -/
def timePriority : List (List Char) :=
  ["time", "t", "timestamp", "sec", "seconds", "ms", "millis",
    "Время", "Время (с)"].map String.toList

/-- `lowered = {c.lower(): c for c in candidates}` — on duplicate lowered
names the later column wins, as in a Python dict comprehension. -/
def loweredDict (cols : List TableColumn) : List (List Char × List Char) :=
  cols.map (fun c => (pyLower c.name, c.name))

/-- Python dict lookup over the association list (the last binding of a key
wins). -/
def dictLookup (entries : List (List Char × List Char)) (key : List Char) :
    Option (List Char) :=
  (entries.reverse.find? (fun e => decide (e.1 = key))).map Prod.snd

/-- The time-column half of `EEG._deduce_columns` when no explicit time
column is given: the first priority entry that is a key of the lowered dict
wins; otherwise the first column whose dtype is numeric or date/time-typed;
otherwise the raised `ValueError("Could not deduce time column")`. -/
def deduceTimeColumn (cols : List TableColumn) : Except String (List Char) :=
  match timePriority.findSome? (fun p => dictLookup (loweredDict cols) p) with
  | some c => Except.ok c
  | none =>
    match cols.find? (fun c => c.isNumeric || c.isDatetime) with
    | some c => Except.ok c.name
    | none => Except.error "Could not deduce time column"

/-- The same resolver with the two localized entries removed from the
priority list (the behavior the code actually implements, since those
entries can never match a lowered key). -/
def deduceTimeColumnAsciiOnly (cols : List TableColumn) :
    Except String (List Char) :=
  match (["time", "t", "timestamp", "sec", "seconds", "ms", "millis"].map
      String.toList).findSome? (fun p => dictLookup (loweredDict cols) p) with
  | some c => Except.ok c
  | none =>
    match cols.find? (fun c => c.isNumeric || c.isDatetime) with
    | some c => Except.ok c.name
    | none => Except.error "Could not deduce time column"

theorem pyLowerChar_ne_cyrB : ∀ c : Char, pyLowerChar c ≠ 'В' := by
  intro c
  unfold pyLowerChar
  split <;> first | decide | assumption

theorem pyLower_ne_of_head_cyrB (s : List Char) (rest : List Char) :
    pyLower s ≠ 'В' :: rest := by
  cases s with
  | nil => simp [pyLower]
  | cons c cs =>
    simp only [pyLower, List.map_cons, ne_eq, List.cons.injEq, not_and]
    intro hc
    exact absurd hc (pyLowerChar_ne_cyrB c)

theorem dictLookup_of_no_lower (cols : List TableColumn) (key : List Char)
    (hkey : ∀ s : List Char, pyLower s ≠ key) :
    dictLookup (loweredDict cols) key = none := by
  unfold dictLookup
  have hfind : (loweredDict cols).reverse.find? (fun e => decide (e.1 = key)) = none := by
    rw [List.find?_eq_none]
    intro e he
    have he2 : e ∈ loweredDict cols := List.mem_reverse.mp he
    obtain ⟨c, hc, rfl⟩ := List.mem_map.mp he2
    simp only [decide_eq_true_eq]
    exact hkey c.name
  rw [hfind]
  rfl

theorem findSome?_append_of_right_none {X Y : Type} (f : X → Option Y)
    (l₁ l₂ : List X) (h : l₂.findSome? f = none) :
    (l₁ ++ l₂).findSome? f = l₁.findSome? f := by
  induction l₁ with
  | nil => simpa using h
  | cons a rest ih =>
    rw [List.cons_append, List.findSome?_cons, List.findSome?_cons]
    cases f a with
    | none => exact ih
    | some b => rfl

theorem pyLower_ne_vremya (s : List Char) : pyLower s ≠ "Время".toList := by
  have hv : "Время".toList = 'В' :: "ремя".toList := rfl
  rw [hv]
  exact pyLower_ne_of_head_cyrB s _

theorem pyLower_ne_vremya_s (s : List Char) : pyLower s ≠ "Время (с)".toList := by
  have hv : "Время (с)".toList = 'В' :: "ремя (с)".toList := rfl
  rw [hv]
  exact pyLower_ne_of_head_cyrB s _

/-- The localized tail of the priority list never produces a match. -/
theorem localized_probes_dead (cols : List TableColumn) :
    (("Время".toList :: "Время (с)".toList :: []) :
      List (List Char)).findSome? (fun p => dictLookup (loweredDict cols) p) = none := by
  have h1 : dictLookup (loweredDict cols) "Время".toList = none :=
    dictLookup_of_no_lower cols _ pyLower_ne_vremya
  have h2 : dictLookup (loweredDict cols) "Время (с)".toList = none :=
    dictLookup_of_no_lower cols _ pyLower_ne_vremya_s
  rw [List.findSome?_cons, h1, List.findSome?_cons, h2]
  rfl

/-- **C8.** The resolver does not match the localized synonyms
case-insensitively as the claim states: `"Время"` is in the priority list,
yet on a table with a numeric column literally named `"Время"` (and a
preceding numeric column `"x"` that the claimed priority order would lose
to), the code falls through to the dtype fallback and picks `"x"`.  In fact
the two localized entries can never match any table — the dict keys are
lowercased while the entries contain the uppercase `'В'` — so the resolver
behaves exactly like one without them. -/
theorem C8_localized_synonyms_dead :
    deduceTimeColumn [⟨"x".toList, true, false⟩, ⟨"Время".toList, true, false⟩] =
      Except.ok "x".toList ∧
    "Время".toList ∈ timePriority ∧
    ∀ cols : List TableColumn,
      deduceTimeColumn cols = deduceTimeColumnAsciiOnly cols := by
  refine ⟨by decide, by decide, fun cols => ?_⟩
  unfold deduceTimeColumn deduceTimeColumnAsciiOnly
  have hsplit : timePriority =
      (["time", "t", "timestamp", "sec", "seconds", "ms", "millis"].map
        String.toList) ++ ("Время".toList :: "Время (с)".toList :: []) := rfl
  rw [hsplit, findSome?_append_of_right_none _ _ _ (localized_probes_dead cols)]

/-! ## Claim C5: the FFT denoiser (`EEG._fft_denoise`, lines 213–225)

The denoiser works on real float arrays through `np.fft.rfft` / `np.fft.irfft`;
it is embedded over `ℝ`/`ℂ` with the numpy conventions:
`rfft(x)ₖ = Σⱼ xⱼ e^{-2πi jk/n}` for `k = 0, …, ⌊n/2⌋`, and `irfft(X, n)` the
real inverse obtained from the Hermitian extension of the half spectrum. -/

/-- `e^{2πir}`, the oscillation underlying the numpy FFT conventions. -/
noncomputable def cexp (r : ℝ) : ℂ := Complex.exp (2 * Real.pi * Complex.I * r)

theorem cexp_add (a b : ℝ) : cexp (a + b) = cexp a * cexp b := by
  unfold cexp
  rw [← Complex.exp_add]
  congr 1
  push_cast
  ring

theorem cexp_intCast (m : ℤ) : cexp m = 1 := by
  unfold cexp
  have h : (2 * (Real.pi : ℂ) * Complex.I * ((m : ℝ) : ℂ)) =
      (m : ℂ) * (2 * Real.pi * Complex.I) := by
    push_cast
    ring
  rw [h]
  exact Complex.exp_int_mul_two_pi_mul_I m

theorem cexp_conj (r : ℝ) : (starRingEnd ℂ) (cexp r) = cexp (-r) := by
  unfold cexp
  rw [← Complex.exp_conj]
  congr 1
  simp only [map_mul, Complex.conj_I, Complex.conj_ofReal, map_ofNat]
  push_cast
  ring

theorem cexp_nat_mul (j : ℕ) (r : ℝ) : cexp (j * r) = cexp r ^ j := by
  unfold cexp
  rw [← Complex.exp_nat_mul]
  congr 1
  push_cast
  ring

/-- Orthogonality of the discrete oscillations: `Σ_{j<n} e^{2πi jd/n}` is `n`
when `n ∣ d` and `0` otherwise. -/
theorem sum_cexp_dvd (n : ℕ) (hn : 0 < n) (d : ℤ) :
    ∑ j : Fin n, cexp ((j : ℝ) * (d : ℝ) / n) =
      if (n : ℤ) ∣ d then (n : ℂ) else 0 := by
  have hne : (n : ℝ) ≠ 0 := Nat.cast_ne_zero.mpr hn.ne'
  have hterm : ∀ j : Fin n, cexp ((j : ℝ) * (d : ℝ) / n) =
      cexp ((d : ℝ) / n) ^ (j : ℕ) := by
    intro j
    rw [← cexp_nat_mul]
    congr 1
    ring
  by_cases hdvd : (n : ℤ) ∣ d
  · obtain ⟨c, rfl⟩ := hdvd
    have hr : cexp ((((n : ℤ) * c : ℤ) : ℝ) / n) = 1 := by
      have h1 : (((n : ℤ) * c : ℤ) : ℝ) / n = ((c : ℤ) : ℝ) := by
        push_cast
        field_simp
      rw [h1, cexp_intCast]
    rw [if_pos ⟨c, rfl⟩]
    simp only [hterm, hr, one_pow]
    simp [Finset.card_univ]
  · rw [if_neg hdvd]
    have hr1 : cexp ((d : ℝ) / n) ≠ 1 := by
      intro hcon
      unfold cexp at hcon
      rw [Complex.exp_eq_one_iff] at hcon
      obtain ⟨m, hm⟩ := hcon
      apply hdvd
      have h2 : (((d : ℝ) / n : ℝ) : ℂ) * (2 * Real.pi * Complex.I) =
          (m : ℂ) * (2 * Real.pi * Complex.I) := by
        rw [← hm]
        ring
      have h3 : (2 * (Real.pi : ℂ) * Complex.I) ≠ 0 :=
        mul_ne_zero (mul_ne_zero two_ne_zero
          (Complex.ofReal_ne_zero.mpr Real.pi_ne_zero)) Complex.I_ne_zero
      have h4 : (((d : ℝ) / n : ℝ) : ℂ) = (m : ℂ) := by
        apply mul_right_cancel₀ h3
        calc (((d : ℝ) / n : ℝ) : ℂ) * (2 * (Real.pi : ℂ) * Complex.I) =
            (((d : ℝ) / n : ℝ) : ℂ) * (2 * Real.pi * Complex.I) := by norm_num
        _ = (m : ℂ) * (2 * Real.pi * Complex.I) := h2
        _ = (m : ℂ) * (2 * (Real.pi : ℂ) * Complex.I) := by norm_num
      have h5 : (d : ℝ) / n = (m : ℝ) := by exact_mod_cast h4
      have h6 : (d : ℝ) = (m : ℝ) * n := by
        field_simp at h5
        linarith
      have h7 : d = m * n := by exact_mod_cast h6
      exact ⟨m, by linarith [mul_comm m (n : ℤ)]⟩
    simp only [hterm]
    rw [Fin.sum_univ_eq_sum_range (fun i => cexp ((d : ℝ) / n) ^ i) n]
    rw [geom_sum_eq hr1 n]
    have hpow : cexp ((d : ℝ) / n) ^ n = 1 := by
      rw [← cexp_nat_mul]
      have h8 : (n : ℝ) * ((d : ℝ) / n) = ((d : ℤ) : ℝ) := by
        field_simp
      rw [h8, cexp_intCast]
    rw [hpow]
    simp

/-- Length of `np.fft.rfft` output for real input length `n`. -/
def rfftLen (n : ℕ) : ℕ := n / 2 + 1

/-- `np.fft.rfft`: the half spectrum `X_k = Σ_j x_j e^{-2πi jk/n}`,
`k = 0, …, ⌊n/2⌋`. -/
noncomputable def rfft (n : ℕ) (x : Fin n → ℝ) (k : Fin (rfftLen n)) : ℂ :=
  ∑ j : Fin n, (x j : ℂ) * cexp (-((j : ℝ) * (k : ℕ) / n))

/-- The Hermitian extension of a half spectrum to a full spectrum: positions
above `n/2` carry the conjugate of the mirrored coefficient, exactly the
spectrum `np.fft.irfft` inverts. -/
noncomputable def hermExt (n : ℕ) (X : Fin (rfftLen n) → ℂ) (k : Fin n) : ℂ :=
  if h : (k : ℕ) ≤ n / 2 then X ⟨k, by simp only [rfftLen]; omega⟩
  else (starRingEnd ℂ) (X ⟨n - k, by
    simp only [rfftLen]
    have := k.isLt
    omega⟩)

/-- `np.fft.irfft(X, n)`: the real inverse transform of the Hermitian
extension, `x_j = Re((1/n) Σ_k ext(X)_k e^{2πi jk/n})`. -/
noncomputable def irfft (n : ℕ) (X : Fin (rfftLen n) → ℂ) (j : Fin n) : ℝ :=
  ((1 / (n : ℂ)) * ∑ k : Fin n, hermExt n X k * cexp ((j : ℝ) * (k : ℕ) / n)).re

/-- `np.abs(X)` for the half spectrum, as the list `np.median` sees. -/
noncomputable def rfftMags (n : ℕ) (X : Fin (rfftLen n) → ℂ) : List ℝ :=
  (List.finRange (rfftLen n)).map (fun k => Complex.abs (X k))

/-- `np.median` on a real float array (same sort-and-average-middles rule as
the rational `median` above). -/
noncomputable def medianReal (l : List ℝ) : ℝ :=
  let s := l.insertionSort (· ≤ ·)
  (s.getD ((s.length - 1) / 2) 0 + s.getD (s.length / 2) 0) / 2

/-- The hard mask of `EEG._fft_denoise`:
`thresh = np.median(np.abs(X)) * factor; mask = np.abs(X) >= thresh;
X_d = X * mask` — coefficients with magnitude at least the threshold are kept
unchanged, the others are set to exactly `0`. -/
noncomputable def maskCoeffs (n : ℕ) (factor : ℝ) (X : Fin (rfftLen n) → ℂ) :
    Fin (rfftLen n) → ℂ :=
  fun k => if medianReal (rfftMags n X) * factor ≤ Complex.abs (X k) then X k else 0

/-- `EEG._fft_denoise`: rFFT, hard-mask by `median·factor`, inverse rFFT at
the original length. -/
noncomputable def fftDenoise (n : ℕ) (factor : ℝ) (x : Fin n → ℝ) : Fin n → ℝ :=
  irfft n (maskCoeffs n factor (rfft n x))

theorem rfft_im_zero (n : ℕ) (x : Fin n → ℝ) (hn : 0 < n) :
    (rfft n x ⟨0, Nat.succ_pos _⟩).im = 0 := by
  unfold rfft
  rw [Complex.im_sum]
  apply Finset.sum_eq_zero
  intro j _
  have h0 : -((j : ℝ) * ((0 : ℕ) : ℝ) / n) = 0 := by norm_num
  have h1 : cexp (-((j : ℝ) * ((0 : ℕ) : ℝ) / n)) = 1 := by
    rw [h0]
    simpa using cexp_intCast 0
  rw [h1, mul_one]
  exact Complex.ofReal_im _

theorem rfft_im_nyquist (n : ℕ) (x : Fin n → ℝ) (hev : n % 2 = 0) :
    (rfft n x ⟨n / 2, Nat.lt_succ_self _⟩).im = 0 := by
  rcases Nat.eq_zero_or_pos n with hz | hpos
  · subst hz
    unfold rfft
    simp
  · unfold rfft
    rw [Complex.im_sum]
    apply Finset.sum_eq_zero
    intro j _
    have hne : (n : ℝ) ≠ 0 := Nat.cast_ne_zero.mpr hpos.ne'
    have hhalf : ((n / 2 : ℕ) : ℝ) = (n : ℝ) / 2 := by
      rcases Nat.even_iff.mpr hev with ⟨m, hm⟩
      subst hm
      push_cast [Nat.mul_div_cancel_left]
      rw [show m + m = 2 * m by ring]
      push_cast [Nat.mul_div_cancel_left]
      ring
    have hexp : -((j : ℝ) * ((n / 2 : ℕ) : ℝ) / n) = (j : ℕ) * (-(1 / 2)) := by
      rw [hhalf]
      field_simp
      ring
    have hval : cexp (-((j : ℝ) * ((n / 2 : ℕ) : ℝ) / n)) = ((-1 : ℝ) ^ (j : ℕ) : ℝ) := by
      rw [hexp, cexp_nat_mul]
      have hm1 : cexp (-(1 / 2)) = -1 := by
        unfold cexp
        have h9 : (2 * (Real.pi : ℂ) * Complex.I * ((-(1 / 2) : ℝ) : ℂ)) =
            -(Real.pi * Complex.I) := by
          push_cast
          ring
        rw [h9, Complex.exp_neg, Complex.exp_pi_mul_I]
        norm_num
      rw [hm1]
      push_cast
      ring
    rw [hval, ← Complex.ofReal_mul]
    exact Complex.ofReal_im _

theorem int_eq_zero_of_dvd_of_lt {n : ℕ} (hn : 0 < n) {d : ℤ}
    (hd : (n : ℤ) ∣ d) (hlow : -(n : ℤ) < d) (hhigh : d < n) : d = 0 := by
  obtain ⟨c, hc⟩ := hd
  rcases lt_trichotomy c 0 with h | h | h
  · have hb : (n : ℤ) * c ≤ (n : ℤ) * (-1) :=
      mul_le_mul_of_nonneg_left (by omega) (by positivity)
    omega
  · subst h
    simpa using hc
  · have hb : (n : ℤ) * 1 ≤ (n : ℤ) * c :=
      mul_le_mul_of_nonneg_left (by omega) (by positivity)
    omega

theorem sum_const_mul_cexp {n : ℕ} (c w : ℂ) (g : Fin n → ℝ) :
    ∑ j : Fin n, c * (w * cexp (g j)) = c * (w * ∑ j : Fin n, cexp (g j)) := by
  rw [Finset.mul_sum, Finset.mul_sum]

/-- The direct inversion sum: multiplying the synthesis sums by the analysis
oscillation and summing collapses to the coefficient at `K`. -/
theorem inv_sum_term (n : ℕ) (hn : 0 < n) (W : Fin n → ℂ) (K : ℕ) (hKn : K < n) :
    ∑ j : Fin n, ((1 / (n : ℂ)) * ∑ m : Fin n, W m * cexp ((j : ℝ) * (m : ℕ) / n)) *
      cexp (-((j : ℝ) * K / n)) = W ⟨K, hKn⟩ := by
  have hne : (n : ℂ) ≠ 0 := Nat.cast_ne_zero.mpr hn.ne'
  have hstep : ∀ j : Fin n,
      ((1 / (n : ℂ)) * ∑ m : Fin n, W m * cexp ((j : ℝ) * (m : ℕ) / n)) *
        cexp (-((j : ℝ) * K / n)) =
      ∑ m : Fin n, (1 / (n : ℂ)) *
        (W m * cexp ((j : ℝ) * (((((m : ℕ) : ℤ) - (K : ℤ)) : ℤ) : ℝ) / n)) := by
    intro j
    rw [Finset.mul_sum, Finset.sum_mul]
    apply Finset.sum_congr rfl
    intro m _
    have hmerge : cexp ((j : ℝ) * (m : ℕ) / n) * cexp (-((j : ℝ) * K / n)) =
        cexp ((j : ℝ) * (((((m : ℕ) : ℤ) - (K : ℤ)) : ℤ) : ℝ) / n) := by
      rw [← cexp_add]
      congr 1
      push_cast
      ring
    calc (1 / (n : ℂ)) * (W m * cexp ((j : ℝ) * (m : ℕ) / n)) *
          cexp (-((j : ℝ) * K / n)) =
        (1 / (n : ℂ)) * (W m *
          (cexp ((j : ℝ) * (m : ℕ) / n) * cexp (-((j : ℝ) * K / n)))) := by ring
    _ = _ := by rw [hmerge]
  simp only [hstep]
  rw [Finset.sum_comm]
  have hcollapse : ∀ m : Fin n,
      (∑ j : Fin n, (1 / (n : ℂ)) *
        (W m * cexp ((j : ℝ) * (((((m : ℕ) : ℤ) - (K : ℤ)) : ℤ) : ℝ) / n))) =
      if m = ⟨K, hKn⟩ then W m else 0 := by
    intro m
    rw [sum_const_mul_cexp, sum_cexp_dvd n hn (((m : ℕ) : ℤ) - (K : ℤ))]
    by_cases hm : m = (⟨K, hKn⟩ : Fin n)
    · have hval : ((m : ℕ) : ℤ) - (K : ℤ) = 0 := by
        rw [hm]
        simp
      rw [hval, if_pos (dvd_zero _), if_pos hm]
      field_simp
    · have hne2 : ((m : ℕ) : ℤ) - (K : ℤ) ≠ 0 := by
        intro hz
        apply hm
        apply Fin.ext
        simp only [Fin.val_mk]
        omega
      have hnd : ¬ (n : ℤ) ∣ (((m : ℕ) : ℤ) - (K : ℤ)) := by
        intro hdvd
        apply hne2
        apply int_eq_zero_of_dvd_of_lt hn hdvd
        · have := m.isLt
          omega
        · have := m.isLt
          omega
      rw [if_neg hnd, if_neg hm]
      simp
  simp only [hcollapse]
  simp

/-- The conjugate inversion sum: it collapses to the conjugate of the
coefficient at the mirrored position `m₀` (which satisfies
`m₀ + K ≡ 0 (mod n)`). -/
theorem conj_inv_sum_term (n : ℕ) (hn : 0 < n) (W : Fin n → ℂ) (K : ℕ)
    (hKn : K < n) (m₀ : Fin n)
    (hm₀ : (m₀ : ℕ) + K = 0 ∨ (m₀ : ℕ) + K = n) :
    ∑ j : Fin n, (starRingEnd ℂ)
        ((1 / (n : ℂ)) * ∑ m : Fin n, W m * cexp ((j : ℝ) * (m : ℕ) / n)) *
      cexp (-((j : ℝ) * K / n)) = (starRingEnd ℂ) (W m₀) := by
  have hne : (n : ℂ) ≠ 0 := Nat.cast_ne_zero.mpr hn.ne'
  have hconj : ∀ j : Fin n,
      (starRingEnd ℂ) ((1 / (n : ℂ)) *
        ∑ m : Fin n, W m * cexp ((j : ℝ) * (m : ℕ) / n)) =
      (1 / (n : ℂ)) * ∑ m : Fin n,
        (starRingEnd ℂ) (W m) * cexp (-((j : ℝ) * (m : ℕ) / n)) := by
    intro j
    rw [map_mul, map_div₀, map_one, map_natCast, map_sum]
    congr 1
    apply Finset.sum_congr rfl
    intro m _
    rw [map_mul, cexp_conj]
  have hstep : ∀ j : Fin n,
      (starRingEnd ℂ) ((1 / (n : ℂ)) *
        ∑ m : Fin n, W m * cexp ((j : ℝ) * (m : ℕ) / n)) *
        cexp (-((j : ℝ) * K / n)) =
      ∑ m : Fin n, (1 / (n : ℂ)) * ((starRingEnd ℂ) (W m) *
        cexp ((j : ℝ) * (((-(((m : ℕ) : ℤ) + (K : ℤ))) : ℤ) : ℝ) / n)) := by
    intro j
    rw [hconj j, Finset.mul_sum, Finset.sum_mul]
    apply Finset.sum_congr rfl
    intro m _
    have hmerge : cexp (-((j : ℝ) * (m : ℕ) / n)) * cexp (-((j : ℝ) * K / n)) =
        cexp ((j : ℝ) * (((-(((m : ℕ) : ℤ) + (K : ℤ))) : ℤ) : ℝ) / n) := by
      rw [← cexp_add]
      congr 1
      push_cast
      ring
    calc (1 / (n : ℂ)) * ((starRingEnd ℂ) (W m) * cexp (-((j : ℝ) * (m : ℕ) / n))) *
          cexp (-((j : ℝ) * K / n)) =
        (1 / (n : ℂ)) * ((starRingEnd ℂ) (W m) *
          (cexp (-((j : ℝ) * (m : ℕ) / n)) * cexp (-((j : ℝ) * K / n)))) := by ring
    _ = _ := by rw [hmerge]
  simp only [hstep]
  rw [Finset.sum_comm]
  have hcollapse : ∀ m : Fin n,
      (∑ j : Fin n, (1 / (n : ℂ)) * ((starRingEnd ℂ) (W m) *
        cexp ((j : ℝ) * (((-(((m : ℕ) : ℤ) + (K : ℤ))) : ℤ) : ℝ) / n))) =
      if m = m₀ then (starRingEnd ℂ) (W m) else 0 := by
    intro m
    rw [sum_const_mul_cexp, sum_cexp_dvd n hn (-(((m : ℕ) : ℤ) + (K : ℤ)))]
    by_cases hm : m = m₀
    · have hdvd : (n : ℤ) ∣ (-(((m : ℕ) : ℤ) + (K : ℤ))) := by
        rw [Int.dvd_neg]
        subst hm
        rcases hm₀ with h | h
        · exact ⟨0, by omega⟩
        · exact ⟨1, by omega⟩
      rw [if_pos hdvd, if_pos hm]
      field_simp
    · have hnd : ¬ (n : ℤ) ∣ (-(((m : ℕ) : ℤ) + (K : ℤ))) := by
        rw [Int.dvd_neg]
        rintro ⟨c, hc⟩
        have hc0 : 0 ≤ c := by
          by_contra hneg
          push_neg at hneg
          have hb : (n : ℤ) * c ≤ (n : ℤ) * (-1) :=
            mul_le_mul_of_nonneg_left (by omega) (by positivity)
          omega
        have hc2 : c ≤ 1 := by
          by_contra h2
          push_neg at h2
          have hb : (n : ℤ) * 2 ≤ (n : ℤ) * c :=
            mul_le_mul_of_nonneg_left (by omega) (by positivity)
          have hmlt := m.isLt
          omega
        have hvals : (m : ℕ) + K = 0 ∨ (m : ℕ) + K = n := by
          rcases Nat.eq_zero_or_pos c.toNat with h | h
          · left
            have : c = 0 := by omega
            subst this
            omega
          · right
            have : c = 1 := by omega
            subst this
            omega
        apply hm
        apply Fin.ext
        have hm₀lt := m₀.isLt
        have hmlt := m.isLt
        rcases hvals with h | h <;> rcases hm₀ with h2 | h2 <;> omega
      rw [if_neg hnd, if_neg hm]
      simp
  simp only [hcollapse]
  simp

theorem half_sum_real (z : ℂ) (hz : z.im = 0) :
    z / 2 + (starRingEnd ℂ) z / 2 = z := by
  rw [div_add_div_same, Complex.add_conj]
  have h1 : ((2 * z.re : ℝ) : ℂ) / 2 = ((z.re : ℝ) : ℂ) := by
    push_cast
    ring
  rw [h1]
  exact Complex.ext (by simp) (by simp [hz])

/-- `np.fft.rfft(np.fft.irfft(V, n))` returns `V` whenever `V` satisfies the
reality constraints of a half spectrum (real DC coefficient, and for even `n`
a real Nyquist coefficient) — in particular for every hard-masked spectrum of
a real signal. -/
theorem rfft_irfft (n : ℕ) (hn : 0 < n) (V : Fin (rfftLen n) → ℂ)
    (h0 : (V ⟨0, Nat.succ_pos _⟩).im = 0)
    (hNy : n % 2 = 0 → (V ⟨n / 2, Nat.lt_succ_self _⟩).im = 0)
    (k : Fin (rfftLen n)) :
    rfft n (irfft n V) k = V k := by
  have hK : (k : ℕ) ≤ n / 2 := Nat.lt_succ_iff.mp k.isLt
  have hKn : (k : ℕ) < n := by omega
  have hre : ∀ z : ℂ, ((z.re : ℝ) : ℂ) = (z + (starRingEnd ℂ) z) / 2 := by
    intro z
    rw [Complex.add_conj]
    push_cast
    ring
  have hsplit : rfft n (irfft n V) k =
      (∑ j : Fin n, ((1 / (n : ℂ)) * ∑ m : Fin n, hermExt n V m *
        cexp ((j : ℝ) * (m : ℕ) / n)) * cexp (-((j : ℝ) * (k : ℕ) / n))) / 2 +
      (∑ j : Fin n, (starRingEnd ℂ) ((1 / (n : ℂ)) * ∑ m : Fin n, hermExt n V m *
        cexp ((j : ℝ) * (m : ℕ) / n)) * cexp (-((j : ℝ) * (k : ℕ) / n))) / 2 := by
    unfold rfft irfft
    rw [Finset.sum_div, Finset.sum_div, ← Finset.sum_add_distrib]
    apply Finset.sum_congr rfl
    intro j _
    rw [hre]
    ring
  rw [hsplit, inv_sum_term n hn (hermExt n V) (k : ℕ) hKn]
  have he1 : hermExt n V ⟨(k : ℕ), hKn⟩ = V k := by
    unfold hermExt
    rw [dif_pos (show ((⟨(k : ℕ), hKn⟩ : Fin n) : ℕ) ≤ n / 2 from hK)]
  rcases Nat.eq_zero_or_pos (k : ℕ) with hK0 | hKpos
  · rw [conj_inv_sum_term n hn (hermExt n V) (k : ℕ) hKn ⟨0, hn⟩
      (Or.inl (by simp [Fin.val_mk, hK0]))]
    have he2 : hermExt n V ⟨0, hn⟩ = V k := by
      unfold hermExt
      rw [dif_pos (show ((⟨0, hn⟩ : Fin n) : ℕ) ≤ n / 2 from Nat.zero_le _)]
      exact congrArg V (Fin.ext (by simp [hK0]))
    rw [he1, he2]
    apply half_sum_real
    have hk : k = ⟨0, Nat.succ_pos _⟩ := Fin.ext (by simp [hK0])
    rw [hk]
    exact h0
  · have hm₀lt : n - (k : ℕ) < n := by omega
    rw [conj_inv_sum_term n hn (hermExt n V) (k : ℕ) hKn ⟨n - (k : ℕ), hm₀lt⟩
      (Or.inr (by simp only [Fin.val_mk]; omega))]
    rcases Nat.lt_or_ge (2 * (k : ℕ)) n with h2lt | h2ge
    · have hgt : ¬ ((⟨n - (k : ℕ), hm₀lt⟩ : Fin n) : ℕ) ≤ n / 2 := by
        simp only [Fin.val_mk]
        omega
      have he2 : hermExt n V ⟨n - (k : ℕ), hm₀lt⟩ = (starRingEnd ℂ) (V k) := by
        unfold hermExt
        rw [dif_neg hgt]
        refine congrArg _ (congrArg V (Fin.ext ?_))
        simp only [Fin.val_mk]
        omega
      rw [he1, he2, Complex.conj_conj]
      ring
    · have h2eq : 2 * (k : ℕ) = n := by omega
      have heven : n % 2 = 0 := by omega
      have hle : ((⟨n - (k : ℕ), hm₀lt⟩ : Fin n) : ℕ) ≤ n / 2 := by
        simp only [Fin.val_mk]
        omega
      have he2 : hermExt n V ⟨n - (k : ℕ), hm₀lt⟩ = V k := by
        unfold hermExt
        rw [dif_pos hle]
        refine congrArg V (Fin.ext ?_)
        simp only [Fin.val_mk]
        omega
      rw [he1, he2]
      apply half_sum_real
      have hk : k = ⟨n / 2, Nat.lt_succ_self _⟩ := Fin.ext (by
        simp only [Fin.val_mk]
        omega)
      rw [hk]
      exact hNy heven

theorem getD_nonneg_of_mem {l : List ℝ} (hl : ∀ a ∈ l, 0 ≤ a) (k : ℕ) :
    0 ≤ l.getD k 0 := by
  rcases Nat.lt_or_ge k l.length with hk | hk
  · rw [List.getD_eq_getElem l 0 hk]
    exact hl _ (List.getElem_mem hk)
  · rw [List.getD_eq_default l 0 hk]

/-- `np.median` of nonnegative floats is nonnegative. -/
theorem medianReal_nonneg {l : List ℝ} (hl : ∀ a ∈ l, 0 ≤ a) :
    0 ≤ medianReal l := by
  have hmem : ∀ a ∈ l.insertionSort (· ≤ ·), 0 ≤ a := fun a ha =>
    hl a ((List.perm_insertionSort _ _).mem_iff.mp ha)
  have h1 := getD_nonneg_of_mem hmem (((l.insertionSort (· ≤ ·)).length - 1) / 2)
  have h2 := getD_nonneg_of_mem hmem ((l.insertionSort (· ≤ ·)).length / 2)
  simp only [medianReal]
  linarith

/-- `np.median` is monotone under pointwise domination of the samples. -/
theorem medianReal_mono {l₁ l₂ : List ℝ} (h : List.Forall₂ (· ≤ ·) l₁ l₂) :
    medianReal l₁ ≤ medianReal l₂ := by
  have hlen : l₁.length = l₂.length := h.length_eq
  rcases Nat.eq_zero_or_pos l₁.length with h0 | hpos
  · have h1 : l₁ = [] := List.length_eq_zero.mp h0
    have h2 : l₂ = [] := List.length_eq_zero.mp (by omega)
    subst h1
    subst h2
    exact le_refl _
  · have hs1len : (l₁.insertionSort (· ≤ ·)).length = l₁.length :=
      List.length_insertionSort _ _
    have hs2len : (l₂.insertionSort (· ≤ ·)).length = l₂.length :=
      List.length_insertionSort _ _
    have hm : ∀ k, k < l₁.length →
        (l₁.insertionSort (· ≤ ·)).getD k 0 ≤ (l₂.insertionSort (· ≤ ·)).getD k 0 :=
      fun k hk => sorted_getD_mono_of_perm h (List.perm_insertionSort _ _)
        (List.sorted_insertionSort _ _) (List.perm_insertionSort _ _)
        (List.sorted_insertionSort _ _) hk 0
    have hA := hm ((l₁.length - 1) / 2) (by omega)
    have hB := hm (l₁.length / 2) (by omega)
    simp only [medianReal, hs1len, hs2len, ← hlen]
    linarith

/-- Masking never increases a coefficient magnitude. -/
theorem rfftMags_mask_le (n : ℕ) (factor : ℝ) (X : Fin (rfftLen n) → ℂ) :
    List.Forall₂ (· ≤ ·) (rfftMags n (maskCoeffs n factor X)) (rfftMags n X) := by
  unfold rfftMags
  rw [List.forall₂_map_right_iff, List.forall₂_map_left_iff]
  apply List.forall₂_same.mpr
  intro k _
  unfold maskCoeffs
  split
  · exact le_refl _
  · simpa using Complex.abs.nonneg (X k)

theorem rfftMags_nonneg (n : ℕ) (X : Fin (rfftLen n) → ℂ) :
    ∀ a ∈ rfftMags n X, 0 ≤ a := by
  intro a ha
  unfold rfftMags at ha
  rcases List.mem_map.mp ha with ⟨j, _, rfl⟩
  exact Complex.abs.nonneg _

/-- The hard mask of `_fft_denoise` is idempotent: re-masking a masked
spectrum (with the re-computed median threshold) changes nothing, for every
sign of the factor. -/
theorem maskCoeffs_idem (n : ℕ) (factor : ℝ) (X : Fin (rfftLen n) → ℂ) :
    maskCoeffs n factor (maskCoeffs n factor X) = maskCoeffs n factor X := by
  funext k
  set M := maskCoeffs n factor X with hM
  have hmed : medianReal (rfftMags n M) ≤ medianReal (rfftMags n X) :=
    medianReal_mono (hM ▸ rfftMags_mask_le n factor X)
  have hnn : 0 ≤ medianReal (rfftMags n M) :=
    medianReal_nonneg (rfftMags_nonneg n M)
  show (if medianReal (rfftMags n M) * factor ≤ Complex.abs (M k) then M k else 0)
      = M k
  by_cases hk : medianReal (rfftMags n X) * factor ≤ Complex.abs (X k)
  · have hMk : M k = X k := by
      rw [hM]
      exact if_pos hk
    have hth : medianReal (rfftMags n M) * factor ≤ Complex.abs (X k) := by
      rcases le_or_lt 0 factor with hf | hf
      · exact le_trans (mul_le_mul_of_nonneg_right hmed hf) hk
      · have hnp : medianReal (rfftMags n M) * factor ≤ 0 :=
          mul_nonpos_of_nonneg_of_nonpos hnn hf.le
        exact le_trans hnp (Complex.abs.nonneg _)
    rw [hMk, if_pos hth]
  · have hMk : M k = 0 := by
      rw [hM]
      exact if_neg hk
    rw [hMk]
    split
    · rfl
    · rfl

/-- Masking preserves reality of a coefficient (kept coefficients are
unchanged, dropped ones become the real `0`). -/
theorem maskCoeffs_im_zero (n : ℕ) (factor : ℝ) (X : Fin (rfftLen n) → ℂ)
    (k : Fin (rfftLen n)) (h : (X k).im = 0) : (maskCoeffs n factor X k).im = 0 := by
  unfold maskCoeffs
  split
  · exact h
  · simp

/-- The spectrum of the denoised signal is exactly the masked spectrum of the
input: the denoiser zeroes the sub-threshold coefficients and keeps the
others unchanged. -/
theorem fftDenoise_spectrum (n : ℕ) (hn : 0 < n) (factor : ℝ) (x : Fin n → ℝ) :
    rfft n (fftDenoise n factor x) = maskCoeffs n factor (rfft n x) := by
  funext k
  unfold fftDenoise
  apply rfft_irfft n hn _ _ _ k
  · exact maskCoeffs_im_zero n factor (rfft n x) _ (rfft_im_zero n x hn)
  · intro hev
    exact maskCoeffs_im_zero n factor (rfft n x) _ (rfft_im_nyquist n x hev)

theorem fftDenoise_idem (n : ℕ) (hn : 0 < n) (factor : ℝ) (x : Fin n → ℝ) :
    fftDenoise n factor (fftDenoise n factor x) = fftDenoise n factor x := by
  show irfft n (maskCoeffs n factor (rfft n (fftDenoise n factor x)))
      = fftDenoise n factor x
  rw [fftDenoise_spectrum n hn factor x, maskCoeffs_idem]
  rfl

/-- C5: the spectral denoiser `EEG._fft_denoise` is idempotent — for every
nonempty finite real input sequence (`np.fft.rfft` rejects empty input) and
every threshold factor, applying the denoiser twice yields the same output as
applying it once — and each application acts on the spectrum as the hard
mask `maskCoeffs`: it zeroes exactly the coefficients whose magnitude is
below the median magnitude times the factor and keeps the others unchanged.
The output length equals the input length by the type of `fftDenoise`. -/
theorem C5_fft_denoise_idempotent (n : ℕ) (factor : ℝ) (x : Fin (n + 1) → ℝ) :
    fftDenoise (n + 1) factor (fftDenoise (n + 1) factor x)
        = fftDenoise (n + 1) factor x ∧
    rfft (n + 1) (fftDenoise (n + 1) factor x)
        = maskCoeffs (n + 1) factor (rfft (n + 1) x) :=
  ⟨fftDenoise_idem (n + 1) (Nat.succ_pos n) factor x,
   fftDenoise_spectrum (n + 1) (Nat.succ_pos n) factor x⟩
